import Mathlib

/-!
Verification of the chatlog V4 key-extraction core against its specification.

The development shallowly embeds, over `List Char` / `List Nat`:
 * the `/proc/pid/maps` parser `LoadVmmap` (src/internal/wechat/key/linux/glance/vmmap.go),
 * the region filter `filterMemoryRegions`, the producer `findMemory` and the
   pipeline `Extract` / `SearchKey` (src/internal/wechat/key/linux/v4.go),
 * the back-to-front anchored scanner `findCandidatePointers` and the batched
   point-read/validation steps (same file),
 * the key validator `testkey_v4` (src/unnamed/part_000, part_001), parameterised
   over the crypto primitives (PBKDF2-HMAC-SHA512, HMAC-SHA512), which are treated
   as abstract functions on byte lists.

Bytes are modelled as `Nat` (values below 256 in any real buffer); strings as
`List Char`. Concurrency in `Extract` is collapsed to the deterministic
sequential semantics: buffers are scanned in producer emission order and the
first validated key wins; the claims settled against this model concern only
behaviour that is independent of worker interleaving (the error paths and
per-buffer scanning). Go map iteration order (used by `batchValidateKeys`) is
unspecified; it is modelled relationally via permutations of the entry list.
-/

set_option maxRecDepth 4000

namespace Chatlog

/-! ## Generic string helpers (models of Go `strings` functions) -/

/-- Does `hay` start with `needle`? (helper for `containsSeq`). -/
def beginsWith : List Char → List Char → Bool
  | _, [] => true
  | [], _ :: _ => false
  | h :: t, n :: m => h = n && beginsWith t m

/-- Model of Go `strings.Contains`: does `needle` occur contiguously in `hay`? -/
def containsSeq (hay needle : List Char) : Bool :=
  beginsWith hay needle ||
    match hay with
    | [] => false
    | _ :: t => containsSeq t needle

/-- Whitespace as matched by `\s` in a Go regular expression: `[\t\n\f\r ]`. -/
def isSpaceRe (c : Char) : Bool :=
  c = ' ' || c = '\t' || c = '\n' || c = '\x0C' || c = '\r'

/-- Whitespace as trimmed by Go `strings.TrimSpace` (`unicode.IsSpace`),
restricted to the Latin-1 range. -/
def isSpaceTrim (c : Char) : Bool :=
  c = ' ' || c = '\t' || c = '\n' || c = '\x0B' || c = '\x0C' || c = '\r' ||
    c = Char.ofNat 0x85 || c = Char.ofNat 0xA0

/-- Model of Go `strings.TrimSpace`. -/
def trimSpace (s : List Char) : List Char :=
  ((s.dropWhile isSpaceTrim).reverse.dropWhile isSpaceTrim).reverse

/-- Split the input at newline characters; model of scanning the input with
`bufio.Scanner` line by line (the scanner yields no final empty token, but a
final empty line is dropped by the parser's empty-line check anyway; the
scanner's 64 KiB token-size cap, which silently ends scanning on an overlong
line, is not modelled). -/
def splitLinesAux : List Char → List Char → List (List Char)
  | [], cur => [cur.reverse]
  | c :: rest, cur =>
      if c = '\n' then cur.reverse :: splitLinesAux rest []
      else splitLinesAux rest (c :: cur)

/-- All lines of the input. -/
def splitLines (s : List Char) : List (List Char) := splitLinesAux s []

/-! ## The `/proc/pid/maps` line format (vmmap.go) -/

/-- Hexadecimal digit as matched by the character class `[0-9a-f]`. -/
def isHexChar (c : Char) : Bool := ( '0' ≤ c && c ≤ '9') || ( 'a' ≤ c && c ≤ 'f')

/-- Characters of the permission field class `[rwxp-]`. -/
def isPermChar (c : Char) : Bool :=
  c = 'r' || c = 'w' || c = 'x' || c = 'p' || c = '-'

/-- Decimal digit as matched by `\d`. -/
def isDigitChar (c : Char) : Bool := '0' ≤ c && c ≤ '9'

/-- Take a nonempty maximal run of characters satisfying `p` (the greedy `+`
of the regular expression); fails on an empty run. -/
def takeRun (p : Char → Bool) (s : List Char) : Option (List Char × List Char) :=
  let run := s.takeWhile p
  if run.isEmpty then none else some (run, s.dropWhile p)

/-- Expect one literal character. -/
def expectChar (c : Char) : List Char → Option (List Char)
  | [] => none
  | x :: rest => if x = c then some rest else none

/-- Deterministic model of matching the anchored regular expression
`^([0-9a-f]+)-([0-9a-f]+)\s+([rwxp-]+)\s+[0-9a-f]+\s+[0-9a-f]+:[0-9a-f]+\s+\d+\s*(.*)$`
used by `LoadVmmap`. Each quantifier is matched greedily; for this pattern the
greedy run is the unique viable choice at every step, because no character
class contains the delimiter that follows it. Returns the four capture groups
(start address, end address, permissions, pathname rest). -/
def parseMapsLine (line : List Char) : Option (List Char × List Char × List Char × List Char) := do
  let (g1, s1) ← takeRun isHexChar line
  let s2 ← expectChar '-' s1
  let (g2, s3) ← takeRun isHexChar s2
  let (_, s4) ← takeRun isSpaceRe s3
  let (perms, s5) ← takeRun isPermChar s4
  let (_, s6) ← takeRun isSpaceRe s5
  let (_, s7) ← takeRun isHexChar s6
  let (_, s8) ← takeRun isSpaceRe s7
  let (_, s9) ← takeRun isHexChar s8
  let s10 ← expectChar ':' s9
  let (_, s11) ← takeRun isHexChar s10
  let (_, s12) ← takeRun isSpaceRe s11
  let (_, s13) ← takeRun isDigitChar s12
  let rest := s13.dropWhile isSpaceRe
  pure (g1, g2, perms, rest)

/-- Value of a string of hexadecimal digits. -/
def hexDigitVal (c : Char) : Nat :=
  if '0' ≤ c && c ≤ '9' then c.toNat - '0'.toNat else c.toNat - 'a'.toNat + 10

/-- Model of Go `strconv.ParseUint(s, 16, 64)` on a nonempty string of
lowercase hexadecimal digits: fails exactly when the value overflows 64 bits. -/
def parseUint64Hex (ds : List Char) : Option Nat :=
  let v := ds.foldl (fun a c => 16 * a + hexDigitVal c) 0
  if v < 2 ^ 64 then some v else none

/-- Region classification tags (string constants of vmmap.go). -/
def heapTag : List Char := ['[', 'h', 'e', 'a', 'p', ']']

def stackTag : List Char := ['[', 's', 't', 'a', 'c', 'k', ']']

def soTag : List Char := ['.', 's', 'o']

def libraryTag : List Char := ['[', 'l', 'i', 'b', 'r', 'a', 'r', 'y', ']']

def anonymousTag : List Char := ['[', 'a', 'n', 'o', 'n', 'y', 'm', 'o', 'u', 's', ']']

def mappedTag : List Char := ['[', 'm', 'a', 'p', 'p', 'e', 'd', ']']

def prvTag : List Char := ['P', 'R', 'V']

def wTag : List Char := ['w']

/-- Classification of a region by its pathname, as in `LoadVmmap`. -/
def classifyRegionType (pathname : List Char) : List Char :=
  if pathname.isEmpty then anonymousTag
  else if containsSeq pathname heapTag then heapTag
  else if containsSeq pathname stackTag then stackTag
  else if containsSeq pathname soTag then libraryTag
  else mappedTag

/-- The `MemRegion` record of vmmap.go. -/
structure MemRegion where
  RegionType : List Char
  Start : Nat
  End : Nat
  VSize : Nat
  RSDNT : Nat
  SHRMOD : List Char
  Permissions : List Char
  RegionDetail : List Char
deriving DecidableEq

/-- Unsigned 64-bit subtraction (`end - start` on Go `uint64` wraps around). -/
def sub64 (a b : Nat) : Nat := (a + 2 ^ 64 - b) % 2 ^ 64

/-- The body of `LoadVmmap`'s per-line processing: trim the line, match the
maps-format regular expression, parse the two addresses, skip non-writable
regions, classify by pathname and build the `MemRegion`. `none` means the
line is skipped (the loop's `continue` paths). -/
def lineRegion (raw : List Char) : Option MemRegion :=
  let line := trimSpace raw
  if line.isEmpty then none
  else
    match parseMapsLine line with
    | none => none
    | some (g1, g2, perms, path) =>
      match parseUint64Hex g1 with
      | none => none
      | some startv =>
        match parseUint64Hex g2 with
        | none => none
        | some endv =>
          let pathname := trimSpace path
          if containsSeq perms wTag then
            let vsize := sub64 endv startv
            some { RegionType := classifyRegionType pathname, Start := startv,
                   End := endv, VSize := vsize, RSDNT := vsize, SHRMOD := prvTag,
                   Permissions := perms, RegionDetail := pathname }
          else none

/-- The scanning loop of `LoadVmmap`: append the region of every accepted line,
in input order. -/
def loadVmmapLoop : List (List Char) → List MemRegion → List MemRegion
  | [], acc => acc
  | l :: rest, acc =>
    match lineRegion l with
    | none => loadVmmapLoop rest acc
    | some r => loadVmmapLoop rest (acc ++ [r])

/-- Error type of `LoadVmmap`'s Go signature (`([]MemRegion, error)`). The
function body contains a single `return regions, nil`. -/
inductive VmmapErr where
  | parseFailed
deriving DecidableEq

/-- Function `LoadVmmap` of vmmap.go: scan the input line by line and collect regions;
the error result is always nil. -/
def LoadVmmap (input : List Char) : Except VmmapErr (List MemRegion) :=
  Except.ok (loadVmmapLoop (splitLines input) [])

/-- The region list produced by `LoadVmmap`. -/
def loadVmmapRegions (input : List Char) : List MemRegion :=
  loadVmmapLoop (splitLines input) []

/-! ## Region filtering (v4.go) -/

/-- Constant `MinRegionSize` of v4.go: 1 MiB. -/
def MinRegionSize : Nat := 1 * 1024 * 1024

/-- Constant `BatchValidateSize` of v4.go. -/
def BatchValidateSize : Nat := 8

/-- The per-region test of `filterMemoryRegions` (v4.go): drop regions below
1 MiB, then keep `[heap]` and `[anonymous]` regions, and `[mapped]` regions
whose permissions contain `w`. -/
def keepRegion (r : MemRegion) : Bool :=
  if r.VSize < MinRegionSize then false
  else if r.RegionType == heapTag then true
  else if r.RegionType == anonymousTag then true
  else if r.RegionType == mappedTag then containsSeq r.Permissions wTag
  else false

/-- Function `filterMemoryRegions` of v4.go. -/
def filterMemoryRegions (regions : List MemRegion) : List MemRegion :=
  regions.filter keepRegion

/-! ## The V4 validator `testkey_v4` (src/unnamed/part_000 and part_001) -/

/-- Constant `V4_PAGE_SIZE`. -/
def V4_PAGE_SIZE : Nat := 4096

/-- Constant `KEY_SIZE`. -/
def KEY_SIZE : Nat := 32

/-- Constant `SALT_SIZE`. -/
def SALT_SIZE : Nat := 16

/-- Constant `HMAC_SHA512_SIZE`. -/
def HMAC_SHA512_SIZE : Nat := 64

/-- Constant `IV_SIZE`. -/
def IV_SIZE : Nat := 16

/-- Constant `AES_BLOCK_SIZE`. -/
def AES_BLOCK_SIZE : Nat := 16

/-- Constant `V4_ITER_COUNT`. -/
def V4_ITER_COUNT : Nat := 256000

/-- The `reserve` computation of `testkey_v4`: `IV_SIZE + HMAC_SHA512_SIZE`,
rounded up to the next multiple of `AES_BLOCK_SIZE` when not already one. -/
def reserve : Nat :=
  let r := IV_SIZE + HMAC_SHA512_SIZE
  if r % AES_BLOCK_SIZE ≠ 0 then (r / AES_BLOCK_SIZE + 1) * AES_BLOCK_SIZE else r

/-- The `data_end` computation of `testkey_v4`. -/
def data_end : Nat := V4_PAGE_SIZE - reserve + IV_SIZE

/-- The two key-derivation/authentication primitives used by `testkey_v4`,
kept abstract: `pbkdf2HmacSha512 password salt iterations keyLen` and
`hmacSha512 key message`. The development proves structural properties of the
validator that hold for every implementation of the primitives. -/
structure CryptoPrims where
  pbkdf2HmacSha512 : List Nat → List Nat → Nat → Nat → List Nat
  hmacSha512 : List Nat → List Nat → List Nat

/-- Function `testkey_v4(page, key)`: derive the encryption key from the page salt with
256000 PBKDF2-HMAC-SHA512 iterations, derive the MAC key from it with the
XOR-0x3A salt and 2 iterations, HMAC the page body `[SALT_SIZE, data_end)`
followed by the little-endian page number 1, and compare with the stored HMAC
at `[data_end, data_end + 64)`. -/
def testkey_v4 (C : CryptoPrims) (page key : List Nat) : Bool :=
  let salt := page.take SALT_SIZE
  let enc_key := C.pbkdf2HmacSha512 key salt V4_ITER_COUNT KEY_SIZE
  let mac_salt := salt.map (fun b => b ^^^ 0x3A)
  let mac_key := C.pbkdf2HmacSha512 enc_key mac_salt 2 KEY_SIZE
  let msg := (page.drop SALT_SIZE).take (data_end - SALT_SIZE) ++ [1, 0, 0, 0]
  let calculated_hmac := C.hmacSha512 mac_key msg
  let stored_hmac := (page.drop data_end).take HMAC_SHA512_SIZE
  calculated_hmac == stored_hmac

/-! Claim-side (specification-worded) restatements of the validator's
derivations, used to compare `testkey_v4` with the specification text. -/

/-- Per the spec: `enc_key = PBKDF2-HMAC-SHA512(key, firstpage[0..16], 256000, 32)`. -/
def specEncKey (C : CryptoPrims) (page key : List Nat) : List Nat :=
  C.pbkdf2HmacSha512 key (page.take 16) 256000 32

/-- Per the spec: `mac_salt[i] = salt[i] XOR 0x3A`. -/
def specMacSalt (page : List Nat) : List Nat :=
  (page.take 16).map (fun b => b ^^^ 0x3A)

/-- Per the spec: `mac_key = PBKDF2-HMAC-SHA512(enc_key, mac_salt, 2, 32)`. -/
def specMacKey (C : CryptoPrims) (page key : List Nat) : List Nat :=
  C.pbkdf2HmacSha512 (specEncKey C page key) (specMacSalt page) 2 32

/-- Per the spec: `msg = firstpage[16 .. 4032] || LE32(1)`. -/
def specMsg (page : List Nat) : List Nat :=
  (page.drop 16).take (4032 - 16) ++ [1, 0, 0, 0]

/-- Per the spec: the stored HMAC `firstpage[4032 .. 4096]`. -/
def specStoredHmac (page : List Nat) : List Nat :=
  (page.drop 4032).take 64

/-- Modelled from the spec: the `decrypt.Validator` of the repository is not
under src/ (v4.go only calls `validator.Validate`). Per the spec, the
validator returns `false` when the page salt is all zero (and flags the
database as not encrypted); otherwise it performs the V4 check, whose in-src
reference implementation is `testkey_v4`. -/
def specValidate (C : CryptoPrims) (page key : List Nat) : Bool :=
  if (page.take 16).all (fun b => b == 0) then false else testkey_v4 C page key

/-- Modelled from the spec: the `DatabaseNotEncrypted` flag the validator sets
when the page salt is all zero. -/
def specDatabaseNotEncrypted (page : List Nat) : Bool :=
  (page.take 16).all (fun b => b == 0)

/-! ## The anchored back-to-front scanner (v4.go `findCandidatePointers`) -/

/-- The 24-byte anchor pattern of the V4 worker: three little-endian 64-bit
words 0, 0x20, 0x2F. -/
def keyPattern : List Nat :=
  [0x00, 0x00, 0x00, 0x00, 0x00, 0x00, 0x00, 0x00,
   0x20, 0x00, 0x00, 0x00, 0x00, 0x00, 0x00, 0x00,
   0x2F, 0x00, 0x00, 0x00, 0x00, 0x00, 0x00, 0x00]

/-- Does `pat` occur in `s` starting at offset `q`? -/
def occursAt (s pat : List Nat) (q : Nat) : Bool :=
  (s.drop q).take pat.length == pat

/-- Scan offsets `n, n-1, ..., 0` for the highest occurrence of `pat`. -/
def lastIndexAux (s pat : List Nat) : Nat → Option Nat
  | 0 => if occursAt s pat 0 then some 0 else none
  | n + 1 => if occursAt s pat (n + 1) then some (n + 1) else lastIndexAux s pat n

/-- Model of Go `bytes.LastIndex(s, pat)`: the highest offset at which `pat`
occurs in `s`, `none` for the Go result -1. -/
def bytesLastIndex (s pat : List Nat) : Option Nat :=
  if pat.length ≤ s.length then lastIndexAux s pat (s.length - pat.length) else none

/-- Model of `binary.LittleEndian.Uint64`: the first 8 bytes as a
little-endian 64-bit value. -/
def leUint64 (bs : List Nat) : Nat :=
  (bs.take 8).foldr (fun b acc => acc * 256 + b) 0

/-- The acceptance window of v4.go: `ptr > 0x10000 && ptr < 0x7FFFFFFFFFFF`. -/
def inPtrRange (ptr : Nat) : Bool :=
  decide (0x10000 < ptr) && decide (ptr < 0x7FFFFFFFFFFF)

/-- The candidate produced from a pattern match at offset `p` (for `p ≥ 8`):
the little-endian 64-bit value of the 8 bytes at `[p-8, p)`, accepted only
inside the pointer range. -/
def candOf (buf : List Nat) (p : Nat) : Option Nat :=
  let ptr := leUint64 ((buf.drop (p - 8)).take 8)
  if inPtrRange ptr then some ptr else none

/-- The loop of `findCandidatePointers` (v4.go). `idx` is the Go variable
`index`: each iteration finds the last occurrence of `keyPattern` in
`buf[:idx]`; it stops at no occurrence or an occurrence with fewer than 8
preceding bytes, otherwise reads the 8 bytes before the match as a candidate
pointer, keeps it when it lies in the pointer range (stopping once 8
candidates are collected), and resumes with `idx = p - 1`. The first result
component is the candidate list of the source; the second records the match
offsets the loop examined, in examination order. `fuel` bounds the number of
iterations so that the function is structurally recursive; every iteration
strictly decreases `idx`, so `idx + 1` iterations always suffice: the result
is independent of the fuel once it exceeds `idx` (`fcpGo_fuel_irrel`). -/
def fcpGo (buf : List Nat) : Nat → Nat → List Nat → List Nat × List Nat
  | 0, _, cands => (cands, [])
  | fuel + 1, idx, cands =>
    match bytesLastIndex (buf.take idx) keyPattern with
    | none => (cands, [])
    | some p =>
      if p < 8 then (cands, [p])
      else
        let ptr := leUint64 ((buf.drop (p - 8)).take 8)
        if inPtrRange ptr then
          let cands' := cands ++ [ptr]
          if BatchValidateSize ≤ cands'.length then (cands', [p])
          else
            let r := fcpGo buf fuel (p - 1) cands'
            (r.1, p :: r.2)
        else
          let r := fcpGo buf fuel (p - 1) cands
          (r.1, p :: r.2)

/-- Function `findCandidatePointers` of v4.go: run the loop from `index = len(memory)`
with an empty candidate list. -/
def findCandidatePointers (buf : List Nat) : List Nat :=
  (fcpGo buf (buf.length + 1) buf.length []).1

/-- The sequence of match offsets examined by `findCandidatePointers`. -/
def fcpTrace (buf : List Nat) : List Nat :=
  (fcpGo buf (buf.length + 1) buf.length []).2

/-! ## Batched point-reads and validation (v4.go) -/

/-- Insertion into a Go `map[uint64][]byte`, represented as an association
list keyed by first insertion: writing an existing key overwrites its value in
place, a new key is appended. -/
def goMapInsert (m : List (Nat × List Nat)) (k : Nat) (v : List Nat) :
    List (Nat × List Nat) :=
  match m with
  | [] => [(k, v)]
  | (k', v') :: rest =>
    if k' = k then (k', v) :: rest else (k', v') :: goMapInsert rest k v

/-- The loop of `batchReadMemory` (v4.go): point-read every candidate address
in candidate order; successful reads are stored in the results map, failures
are skipped. The second component records every address a point-read was
attempted for, in order. `rm` models `readMemoryAtAddressUnsafe` at size 32
(`none` = failed read). -/
def batchReadLoop (rm : Nat → Option (List Nat)) :
    List Nat → List (Nat × List Nat) → List Nat → List (Nat × List Nat) × List Nat
  | [], m, tr => (m, tr)
  | addr :: rest, m, tr =>
    match rm addr with
    | some d => batchReadLoop rm rest (goMapInsert m addr d) (tr ++ [addr])
    | none => batchReadLoop rm rest m (tr ++ [addr])

/-- Function `batchReadMemory` of v4.go: the results map. -/
def batchReadMemory (rm : Nat → Option (List Nat)) (candidates : List Nat) :
    List (Nat × List Nat) :=
  (batchReadLoop rm candidates [] []).1

/-- The point-read attempts performed by `batchReadMemory`, in order. -/
def batchReadAttempts (rm : Nat → Option (List Nat)) (candidates : List Nat) :
    List Nat :=
  (batchReadLoop rm candidates [] []).2

/-- The validation loop of `batchValidateKeys` over one enumeration of the
results map: return the first entry whose data validates. Go iterates the map
in an unspecified order, so the enumeration is passed explicitly; any
permutation of the entry list is a possible iteration order. -/
def batchValidateKeysWith (entries : List (Nat × List Nat))
    (val : List Nat → Bool) : Option (List Nat) :=
  match entries with
  | [] => none
  | (_, d) :: rest => if val d then some d else batchValidateKeysWith rest val

/-- Function `batchValidateKeys` of v4.go, with the map enumerated in first-insertion
order (one of the possible Go iteration orders): batch-read all candidates,
then validate each read value, returning the first that validates. -/
def batchValidateKeys (rm : Nat → Option (List Nat)) (val : List Nat → Bool)
    (candidates : List Nat) : Option (List Nat) :=
  if candidates = [] then none
  else
    let keyDataMap := batchReadMemory rm candidates
    if keyDataMap = [] then none
    else batchValidateKeysWith keyDataMap val

/-! ## The pipeline (v4.go `worker`, `SearchKey`, `findMemory`, `Extract`) -/

/-- The per-buffer body of the v4.go `worker` (and of `SearchKey`): collect
the candidate pointers of the buffer, and when there are any, batch-read and
validate them. `some key` models posting the key on the result channel (the
key is kept as raw bytes; the source hex-encodes it). -/
def workerStep (rm : Nat → Option (List Nat)) (val : List Nat → Bool)
    (memory : List Nat) : Option (List Nat) :=
  let candidates := findCandidatePointers memory
  if candidates = [] then none
  else batchValidateKeys rm val candidates

/-- Function `SearchKey` of v4.go: refuse to scan when `currentPID` was never set
(the Go function returns `("", false)`, modelled as `none`); otherwise scan
the supplied buffer like a worker. -/
def SearchKey (currentPID : Nat) (rm : Nat → Option (List Nat))
    (val : List Nat → Bool) (memory : List Nat) : Option (List Nat) :=
  if currentPID = 0 then none
  else
    let candidates := findCandidatePointers memory
    if candidates = [] then none
    else batchValidateKeys rm val candidates

/-- The point-read attempts performed by `SearchKey`. -/
def SearchKeyReads (currentPID : Nat) (rm : Nat → Option (List Nat))
    (memory : List Nat) : List Nat :=
  if currentPID = 0 then []
  else
    let candidates := findCandidatePointers memory
    if candidates = [] then []
    else batchReadAttempts rm candidates

/-- The error kinds `Extract` and its producer can surface. The names follow
the repository's `errors` package (not under src/) and the specification's
taxonomy; `databaseNotEncrypted` is included so that claims about it can be
stated. -/
inductive V4Error where
  | weChatOffline
  | initMemoryFileFailed
  | vmmapFailed
  | noMemoryRegionsFound
  | noValidKey
  | databaseNotEncrypted
deriving DecidableEq

/-- Function `findMemory` of v4.go: enumerate regions (`vm` is the `GetVmmap` result),
filter them, fail with `noMemoryRegionsFound` when nothing survives, otherwise
read each region in order (`readRegion`; a failed read is logged and skipped)
and emit the buffers onto the memory channel, modelled as the returned list. -/
def findMemory (vm : Except V4Error (List MemRegion))
    (readRegion : MemRegion → Option (List Nat)) :
    Except V4Error (List (List Nat)) :=
  match vm with
  | Except.error e => Except.error e
  | Except.ok regions =>
    let filtered := filterMemoryRegions regions
    if filtered = [] then Except.error V4Error.noMemoryRegionsFound
    else Except.ok (filtered.filterMap readRegion)

/-- The buffers the workers receive: `Extract` runs `findMemory` in a
producer goroutine and only logs its error, so a failing producer simply
yields no buffers. -/
def pipelineBuffers (vm : Except V4Error (List MemRegion))
    (readRegion : MemRegion → Option (List Nat)) : List (List Nat) :=
  match findMemory vm readRegion with
  | Except.error _ => []
  | Except.ok bufs => bufs

/-- Function `Extract` of v4.go, collapsed to its sequential semantics: offline check,
memory-file initialisation, then scan the produced buffers; the first
validated key is returned, and `noValidKey` when no buffer yields one. The
producer's error is never propagated (it is only logged). External context
cancellation is not modelled. -/
def Extract (offline : Bool) (initOk : Bool)
    (vm : Except V4Error (List MemRegion))
    (readRegion : MemRegion → Option (List Nat))
    (rm : Nat → Option (List Nat)) (val : List Nat → Bool) :
    Except V4Error (List Nat) :=
  if offline then Except.error V4Error.weChatOffline
  else if initOk = false then Except.error V4Error.initMemoryFileFailed
  else
    match (pipelineBuffers vm readRegion).findSome? (workerStep rm val) with
    | some key => Except.ok key
    | none => Except.error V4Error.noValidKey

/-- The regions `Extract` attempts to read: all filtered regions, regardless
of the validator or of the page contents (`Extract` never looks at the first
page; the validator is injected via `SetValidate`). -/
def ExtractReadAttempts (offline : Bool) (initOk : Bool)
    (vm : Except V4Error (List MemRegion)) : List MemRegion :=
  if offline then []
  else if initOk = false then []
  else
    match vm with
    | Except.error _ => []
    | Except.ok regions => filterMemoryRegions regions

/-! ## Concrete inputs used by witnesses and counterexamples -/

/-- A 4096-byte page of zeros (all-zero salt). -/
def zeroPage : List Nat := List.replicate 4096 0

/-- A 32-byte key of zeros. -/
def zeroKey : List Nat := List.replicate 32 0

/-- A trivial instantiation of the crypto primitives, used to exercise the
validator's structure on concrete inputs. -/
def constPrims : CryptoPrims :=
  { pbkdf2HmacSha512 := fun _ _ _ _ => List.replicate 32 0
    hmacSha512 := fun _ _ => List.replicate 64 0 }

/-- A 2 MiB read-write heap region. -/
def heapRegionCx : MemRegion :=
  { RegionType := heapTag, Start := 0, End := 2097152, VSize := 2097152,
    RSDNT := 2097152, SHRMOD := prvTag, Permissions := ['r', 'w', '-', 'p'],
    RegionDetail := heapTag }

/-- A buffer with two overlapping-free pattern occurrences at offsets 8 and 32,
the first preceded by the little-endian pointer 0x20000. -/
def c4buf : List Nat := [0, 0, 2, 0, 0, 0, 0, 0] ++ keyPattern ++ keyPattern

/-- A buffer with pattern occurrences at offsets 8 and 40, preceded by the
little-endian pointers 0x20000 and 0x30000 respectively. -/
def c7buf : List Nat :=
  [0, 0, 2, 0, 0, 0, 0, 0] ++ keyPattern ++ [0, 0, 3, 0, 0, 0, 0, 0] ++ keyPattern

/-- A point-read function that returns the address itself as data. -/
def c7read : Nat → Option (List Nat) := fun a => some [a]

/-- A validator accepting everything. -/
def c7val : List Nat → Bool := fun _ => true

/-- A writable-but-not-readable 2 MiB heap maps line. -/
def c3input : List Char := "00000000-00200000 -w-p 00000000 08:01 1 [heap]".toList

/-! ## C8: the validator's derived constants -/

/-- C8: `reserve`, computed as `IV_SIZE + HMAC_SIZE` rounded up to the next
multiple of 16, equals 80 — the smallest multiple of 16 at least
`IV_SIZE + HMAC_SIZE` — and `data_end = page_size - reserve + IV_SIZE`
equals 4032. -/
theorem c8_reserve_data_end :
    reserve = 80 ∧ data_end = 4032 ∧ reserve % 16 = 0 ∧
      IV_SIZE + HMAC_SHA512_SIZE ≤ reserve ∧
      ∀ m, m % 16 = 0 → IV_SIZE + HMAC_SHA512_SIZE ≤ m → reserve ≤ m := by
  refine ⟨by decide, by decide, by decide, by decide, ?_⟩
  intro m h16 hge
  have h80 : reserve = 80 := by decide
  have : IV_SIZE + HMAC_SHA512_SIZE = 80 := by decide
  omega

/-- Witness for C8: the minimality clause applied at the concrete multiple 96. -/
theorem c8_reserve_data_end_witness : reserve ≤ 96 :=
  c8_reserve_data_end.2.2.2.2 96 (by decide) (by decide)

/-! ## C10: `SearchKey` without a current PID -/

/-- C10: when `currentPID` is 0 (no `Extract` call has set it), `SearchKey`
returns the empty result (`("", false)` in the source, modelled as `none`)
and performs no point-read on the supplied buffer. -/
theorem c10_searchkey_requires_pid :
    ∀ (rm : Nat → Option (List Nat)) (val : List Nat → Bool) (memory : List Nat),
      SearchKey 0 rm val memory = none ∧ SearchKeyReads 0 rm memory = [] := by
  intro rm val memory
  exact ⟨rfl, rfl⟩

/-! ## C1: the validator against the specification's derivation -/

/-- The validator's computation coincides with the specification's worded
derivation: the slice bounds computed through `reserve` and `data_end` equal
the spec's concrete bounds 16, 4032, 4096. -/
theorem testkey_v4_eq (C : CryptoPrims) (page key : List Nat) :
    testkey_v4 C page key =
      (C.hmacSha512 (specMacKey C page key) (specMsg page) == specStoredHmac page) := by
  unfold testkey_v4 specMacKey specEncKey specMacSalt specMsg specStoredHmac
  have hd : data_end = 4032 := by decide
  rw [hd]
  norm_num [SALT_SIZE, KEY_SIZE, V4_ITER_COUNT, HMAC_SHA512_SIZE]

/-- C1: for every 4096-byte first page and 32-byte key, `testkey_v4` returns
true exactly when `HMAC-SHA512(mac_key, page[16..4032] || LE32(1))` equals
`page[4032..4096]`, with `enc_key`, `mac_salt` and `mac_key` derived as the
specification states; this holds for every implementation of the PBKDF2 and
HMAC primitives, since both sides use the same primitives. -/
theorem c1_validate_iff_hmac (C : CryptoPrims) (page key : List Nat)
    (hpage : page.length = 4096) (hkey : key.length = 32) :
    testkey_v4 C page key = true ↔
      C.hmacSha512 (specMacKey C page key) (specMsg page) = specStoredHmac page := by
  rw [testkey_v4_eq, beq_iff_eq]

/-- Witness for C1: the equivalence instantiated at the all-zero page and key
under the trivial primitives. -/
theorem c1_validate_iff_hmac_witness :
    zeroPage.length = 4096 ∧ zeroKey.length = 32 ∧
      (testkey_v4 constPrims zeroPage zeroKey = true ↔
        constPrims.hmacSha512 (specMacKey constPrims zeroPage zeroKey)
            (specMsg zeroPage) = specStoredHmac zeroPage) :=
  ⟨by unfold zeroPage; simp only [List.length_replicate],
    by unfold zeroKey; simp only [List.length_replicate],
    c1_validate_iff_hmac constPrims zeroPage zeroKey
      (by unfold zeroPage; simp only [List.length_replicate])
      (by unfold zeroKey; simp only [List.length_replicate])⟩

/-! ## C5: error selection of the pipeline -/

/-- Counterexample to C5: with an empty region list the producer `findMemory`
does report `noMemoryRegionsFound`, but `Extract` only logs the producer's
error and returns `noValidKey`, not `noMemoryRegionsFound`. -/
theorem c5_counterexample :
    findMemory (Except.ok ([] : List MemRegion)) (fun _ => none)
        = Except.error V4Error.noMemoryRegionsFound ∧
    Extract false true (Except.ok ([] : List MemRegion)) (fun _ => none)
        (fun _ => none) (fun _ => false) = Except.error V4Error.noValidKey ∧
    (Except.error V4Error.noValidKey : Except V4Error (List Nat)) ≠
      Except.error V4Error.noMemoryRegionsFound := by
  refine ⟨rfl, rfl, by simp⟩

/-- C5 as amended: `findMemory` reports `noMemoryRegionsFound` when filtering
leaves no region, but `Extract` never propagates the producer's error: it
returns `noValidKey` exactly when no produced buffer yields a validated
candidate, and in particular whenever the producer failed. -/
theorem c5_amended (regions : List MemRegion)
    (readRegion : MemRegion → Option (List Nat))
    (rm : Nat → Option (List Nat)) (val : List Nat → Bool) :
    (filterMemoryRegions regions = [] →
      findMemory (Except.ok regions) readRegion
        = Except.error V4Error.noMemoryRegionsFound) ∧
    (Extract false true (Except.ok regions) readRegion rm val
        = Except.error V4Error.noValidKey ↔
      (pipelineBuffers (Except.ok regions) readRegion).findSome?
        (workerStep rm val) = none) ∧
    (∀ e, findMemory (Except.ok regions) readRegion = Except.error e →
      Extract false true (Except.ok regions) readRegion rm val
        = Except.error V4Error.noValidKey) := by
  refine ⟨?_, ?_, ?_⟩
  · intro h
    simp [findMemory, h]
  · unfold Extract
    cases hx : (pipelineBuffers (Except.ok regions) readRegion).findSome?
        (workerStep rm val) with
    | none => simp [hx]
    | some k => simp [hx]
  · intro e he
    unfold Extract
    have hb : pipelineBuffers (Except.ok regions) readRegion = [] := by
      unfold pipelineBuffers
      rw [he]
    rw [hb]
    rfl

/-- Witness for C5's amended statement: the producer error branch at the
empty region list. -/
theorem c5_amended_witness :
    Extract false true (Except.ok ([] : List MemRegion)) (fun _ => none)
        (fun _ => none) (fun _ => false) = Except.error V4Error.noValidKey :=
  (c5_amended [] (fun _ => none) (fun _ => none) (fun _ => false)).2.2
    V4Error.noMemoryRegionsFound rfl

/-! ## C2: all-zero salt -/

/-- Counterexample to C2: on the all-zero page the (spec-modelled) validator
flags `DatabaseNotEncrypted`, yet `Extract` still filters and reads the heap
region and returns `noValidKey`, not `databaseNotEncrypted`; moreover the
in-src `testkey_v4` applies no zero-salt check at all (with the constant
primitives it accepts the all-zero page). -/
theorem c2_counterexample :
    specDatabaseNotEncrypted zeroPage = true ∧
    testkey_v4 constPrims zeroPage zeroKey = true ∧
    Extract false true (Except.ok [heapRegionCx]) (fun _ => some [])
        (fun _ => none) (specValidate constPrims zeroPage)
      = Except.error V4Error.noValidKey ∧
    Extract false true (Except.ok [heapRegionCx]) (fun _ => some [])
        (fun _ => none) (specValidate constPrims zeroPage)
      ≠ Except.error V4Error.databaseNotEncrypted ∧
    ExtractReadAttempts false true (Except.ok [heapRegionCx]) = [heapRegionCx] := by
  have h3 : Extract false true (Except.ok [heapRegionCx]) (fun _ => some [])
      (fun _ => none) (specValidate constPrims zeroPage)
      = Except.error V4Error.noValidKey := rfl
  refine ⟨by decide, ?_, h3, ?_, rfl⟩
  · rw [testkey_v4_eq]
    have h1 : specStoredHmac zeroPage = List.replicate 64 0 := by
      unfold specStoredHmac zeroPage
      rw [List.drop_replicate, List.take_replicate]
      norm_num
    rw [h1]
    exact beq_self_eq_true _
  · rw [h3]
    simp

/-- C2 as amended: for every page with all-zero salt the spec-modelled
validator returns false and raises the `DatabaseNotEncrypted` flag, but
`Extract` never consults the flag: its error result is never
`databaseNotEncrypted`, and it attempts to read every filtered region
regardless of the page. -/
theorem c2_amended (C : CryptoPrims) (page key : List Nat)
    (hz : (page.take 16).all (fun b => b == 0) = true)
    (regions : List MemRegion) (readRegion : MemRegion → Option (List Nat))
    (rm : Nat → Option (List Nat)) :
    specValidate C page key = false ∧
    specDatabaseNotEncrypted page = true ∧
    (∀ e, Extract false true (Except.ok regions) readRegion rm
        (specValidate C page) = Except.error e →
      e ≠ V4Error.databaseNotEncrypted) ∧
    ExtractReadAttempts false true (Except.ok regions)
      = filterMemoryRegions regions := by
  refine ⟨?_, hz, ?_, rfl⟩
  · unfold specValidate
    rw [hz]
    rfl
  · intro e he
    unfold Extract at he
    cases hx : (pipelineBuffers (Except.ok regions) readRegion).findSome?
        (workerStep rm (specValidate C page)) with
    | none =>
      rw [hx] at he
      simp at he
      rw [← he]
      simp
    | some k =>
      rw [hx] at he
      simp at he

/-- Witness for C2's amended statement at the all-zero page. -/
theorem c2_amended_witness :
    specValidate constPrims zeroPage zeroKey = false :=
  (c2_amended constPrims zeroPage zeroKey (by decide) [] (fun _ => none)
    (fun _ => none)).1

/-! ## Helper lemmas for the enumerator (C3, C9) -/

/-- The scanning loop of `LoadVmmap` appends exactly the accepted line
regions, in line order. -/
theorem loadVmmapLoop_eq_filterMap :
    ∀ (ls : List (List Char)) (acc : List MemRegion),
      loadVmmapLoop ls acc = acc ++ ls.filterMap lineRegion := by
  intro ls
  induction ls with
  | nil => intro acc; simp [loadVmmapLoop]
  | cons l rest ih =>
    intro acc
    cases h : lineRegion l with
    | none => simp [loadVmmapLoop, h, ih, List.filterMap_cons]
    | some r => simp [loadVmmapLoop, h, ih, List.filterMap_cons]

/-- Every region accepted by `lineRegion` carries write permission. -/
theorem lineRegion_writable {l : List Char} {r : MemRegion}
    (h : lineRegion l = some r) : containsSeq r.Permissions wTag = true := by
  simp only [lineRegion] at h
  split at h
  · exact absurd h (by simp)
  · split at h
    · exact absurd h (by simp)
    · split at h
      · exact absurd h (by simp)
      · split at h
        · exact absurd h (by simp)
        · split at h
          · rename_i g1 g2 perms path startv endv hw
            obtain rfl := Option.some.inj h
            exact hw
          · exact absurd h (by simp)

/-- The source's per-region filter coincides with the specification's
selection rule (minus the readability requirement): regions of at least 1 MiB
whose classification is heap, anonymous, or writable mapped. -/
theorem keepRegion_iff (r : MemRegion) :
    keepRegion r = true ↔
      MinRegionSize ≤ r.VSize ∧
        (r.RegionType = heapTag ∨ r.RegionType = anonymousTag ∨
          (r.RegionType = mappedTag ∧ containsSeq r.Permissions wTag = true)) := by
  unfold keepRegion
  by_cases h1 : r.VSize < MinRegionSize
  · simp only [h1, if_true]
    constructor
    · intro h; exact absurd h (by simp)
    · intro ⟨h, _⟩; omega
  · simp only [h1, if_false]
    have h1' : MinRegionSize ≤ r.VSize := by omega
    by_cases h2 : r.RegionType = heapTag
    · simp [h2, h1']
    · by_cases h3 : r.RegionType = anonymousTag
      · simp [h2, h3, h1']
      · by_cases h4 : r.RegionType = mappedTag
        · simp [h2, h3, h4, h1']
        · simp [h2, h3, h4, h1']

/-! ## C3: which regions enumeration produces -/

/-- Counterexample to C3: a writable-but-not-readable (`-w-p`) 2 MiB heap
line survives enumeration and filtering, although it is not readable — the
code never checks the read flag. -/
theorem c3_counterexample :
    (filterMemoryRegions (loadVmmapRegions c3input)).map MemRegion.Permissions
        = [['-', 'w', '-', 'p']] ∧
    containsSeq ['-', 'w', '-', 'p'] ['r'] = false := by
  exact ⟨by decide, by decide⟩

/-- C3 as amended: for every maps input, the filtered enumeration output is
exactly the parsed regions that are writable (readability is never checked),
have `end - start` of at least 1 MiB, and are classified heap, anonymous, or
(writable) mapped; regions are produced in input-line order, every enumerated
region being writable. -/
theorem c3_amended (input : List Char) :
    filterMemoryRegions (loadVmmapRegions input)
        = (loadVmmapRegions input).filter (fun r =>
            decide (MinRegionSize ≤ r.VSize ∧
              (r.RegionType = heapTag ∨ r.RegionType = anonymousTag ∨
                (r.RegionType = mappedTag ∧
                  containsSeq r.Permissions wTag = true)))) ∧
    loadVmmapRegions input = (splitLines input).filterMap lineRegion ∧
    ∀ r, r ∈ loadVmmapRegions input → containsSeq r.Permissions wTag = true := by
  refine ⟨?_, ?_, ?_⟩
  · unfold filterMemoryRegions
    apply List.filter_congr
    intro r _
    by_cases hp : MinRegionSize ≤ r.VSize ∧
        (r.RegionType = heapTag ∨ r.RegionType = anonymousTag ∨
          (r.RegionType = mappedTag ∧ containsSeq r.Permissions wTag = true))
    · rw [decide_eq_true hp]
      exact (keepRegion_iff r).mpr hp
    · rw [decide_eq_false hp]
      cases hk : keepRegion r
      · rfl
      · exact absurd ((keepRegion_iff r).mp hk) hp
  · unfold loadVmmapRegions
    rw [loadVmmapLoop_eq_filterMap]
    rfl
  · intro r hr
    unfold loadVmmapRegions at hr
    rw [loadVmmapLoop_eq_filterMap] at hr
    simp only [List.nil_append, List.mem_filterMap] at hr
    obtain ⟨l, _, hl⟩ := hr
    exact lineRegion_writable hl

/-- Witness for C3's amended statement: the writability clause at the
concrete heap line. -/
theorem c3_amended_witness :
    containsSeq ['-', 'w', '-', 'p'] ['w'] = true := by
  have h := (c3_amended c3input).2.2
  have hm : ∀ r, r ∈ loadVmmapRegions c3input →
      containsSeq r.Permissions wTag = true := h
  have hr : (loadVmmapRegions c3input).map MemRegion.Permissions
      = [['-', 'w', '-', 'p']] := by decide
  cases hmem : loadVmmapRegions c3input with
  | nil => rw [hmem] at hr; exact absurd hr (by simp)
  | cons r rest =>
    have := hm r (by rw [hmem]; exact List.mem_cons_self r rest)
    rw [hmem] at hr
    simp only [List.map_cons] at hr
    have hperm : r.Permissions = ['-', 'w', '-', 'p'] := (List.cons.inj hr).1
    rw [hperm] at this
    exact this

/-! ## C9: `LoadVmmap` is total and silently skips bad lines -/

/-- C9: for every input string `LoadVmmap` returns a nil error together with
the regions of the accepted lines; a line that fails the maps-format match,
or whose addresses fail 64-bit parsing, or whose permissions lack `w`,
contributes no region. -/
theorem c9_loadvmmap_total (input : List Char) :
    LoadVmmap input = Except.ok ((splitLines input).filterMap lineRegion) ∧
    (∀ l, parseMapsLine (trimSpace l) = none → lineRegion l = none) ∧
    (∀ l g1 g2 perms path,
      parseMapsLine (trimSpace l) = some (g1, g2, perms, path) →
      parseUint64Hex g1 = none ∨ parseUint64Hex g2 = none ∨
        containsSeq perms wTag = false →
      lineRegion l = none) := by
  refine ⟨?_, ?_, ?_⟩
  · unfold LoadVmmap
    rw [loadVmmapLoop_eq_filterMap]
    rfl
  · intro l hp
    unfold lineRegion
    by_cases he : (trimSpace l).isEmpty
    · simp [he]
    · simp [he, hp]
  · intro l g1 g2 perms path hp hbad
    unfold lineRegion
    by_cases he : (trimSpace l).isEmpty
    · simp [he]
    · simp only [he, if_false, Bool.false_eq_true, hp]
      rcases hbad with hb | hb | hb
      · simp [hb]
      · cases hg1 : parseUint64Hex g1 with
        | none => simp
        | some v => simp [hb]
      · cases hg1 : parseUint64Hex g1 with
        | none => simp
        | some v =>
          cases hg2 : parseUint64Hex g2 with
          | none => simp
          | some w => simp [hb]

/-- Witness for C9: a line that does not match the maps format is skipped. -/
theorem c9_loadvmmap_total_witness :
    lineRegion ['x'] = none :=
  (c9_loadvmmap_total []).2.1 ['x'] (by decide)

/-! ## Helper lemmas for the scanner (C4, C6) -/

/-- The anchor pattern is nonempty. -/
theorem keyPattern_ne_nil : keyPattern ≠ [] := by decide

/-- The anchor pattern has 24 bytes. -/
theorem keyPattern_length : keyPattern.length = 24 := rfl

/-- Unfolding of `occursAt` to a plain equality. -/
theorem occursAt_iff {s pat : List Nat} {q : Nat} :
    occursAt s pat q = true ↔ (s.drop q).take pat.length = pat := by
  simp [occursAt]

/-- An occurrence of a nonempty pattern fits inside the haystack. -/
theorem occursAt_bound {s pat : List Nat} {q : Nat} (hp : pat ≠ [])
    (h : occursAt s pat q = true) : q + pat.length ≤ s.length := by
  rw [occursAt_iff] at h
  have hlen := congrArg List.length h
  simp only [List.length_take, List.length_drop] at hlen
  have hpos : 0 < pat.length := List.length_pos.mpr hp
  omega

/-- Helper `lastIndexAux` returns the greatest occurrence at or below its bound. -/
theorem lastIndexAux_some {s pat : List Nat} :
    ∀ {n p : Nat}, lastIndexAux s pat n = some p →
      p ≤ n ∧ occursAt s pat p = true ∧
        ∀ r, p < r → r ≤ n → occursAt s pat r = false := by
  intro n
  induction n with
  | zero =>
    intro p h
    unfold lastIndexAux at h
    split at h
    · obtain rfl := Option.some.inj h
      refine ⟨Nat.le_refl 0, by assumption, fun r hr hrn => ?_⟩
      omega
    · exact absurd h (by simp)
  | succ n ih =>
    intro p h
    unfold lastIndexAux at h
    split at h
    · obtain rfl := Option.some.inj h
      refine ⟨Nat.le_refl _, by assumption, fun r hr hrn => ?_⟩
      omega
    · rename_i hocc
      obtain ⟨hpn, ho, hmax⟩ := ih h
      refine ⟨Nat.le_succ_of_le hpn, ho, fun r hr hrn => ?_⟩
      by_cases hrn' : r ≤ n
      · exact hmax r hr hrn'
      · have : r = n + 1 := by omega
        subst this
        simpa using hocc

/-- When `lastIndexAux` fails there is no occurrence at or below its bound. -/
theorem lastIndexAux_none {s pat : List Nat} :
    ∀ {n : Nat}, lastIndexAux s pat n = none →
      ∀ r, r ≤ n → occursAt s pat r = false := by
  intro n
  induction n with
  | zero =>
    intro h r hr
    unfold lastIndexAux at h
    split at h
    · exact absurd h (by simp)
    · rename_i hocc
      have : r = 0 := by omega
      subst this
      simpa using hocc
  | succ n ih =>
    intro h r hr
    unfold lastIndexAux at h
    split at h
    · exact absurd h (by simp)
    · rename_i hocc
      by_cases hrn : r ≤ n
      · exact ih h r hrn
      · have : r = n + 1 := by omega
        subst this
        simpa using hocc

/-- Model `bytesLastIndex` returns the greatest occurrence of the pattern. -/
theorem bytesLastIndex_some {s pat : List Nat} (hp : pat ≠ []) {p : Nat}
    (h : bytesLastIndex s pat = some p) :
    occursAt s pat p = true ∧ ∀ r, p < r → occursAt s pat r = false := by
  unfold bytesLastIndex at h
  split at h
  · obtain ⟨hpn, ho, hmax⟩ := lastIndexAux_some h
    refine ⟨ho, fun r hr => ?_⟩
    by_cases hrn : r ≤ s.length - pat.length
    · exact hmax r hr hrn
    · cases hocc : occursAt s pat r with
      | false => rfl
      | true =>
        have hb := occursAt_bound hp hocc
        omega
  · exact absurd h (by simp)

/-- When `bytesLastIndex` fails the pattern does not occur at all. -/
theorem bytesLastIndex_none {s pat : List Nat} (hp : pat ≠ [])
    (h : bytesLastIndex s pat = none) : ∀ r, occursAt s pat r = false := by
  unfold bytesLastIndex at h
  split at h
  · intro r
    by_cases hrn : r ≤ s.length - pat.length
    · exact lastIndexAux_none h r hrn
    · cases hocc : occursAt s pat r with
      | false => rfl
      | true =>
        have hb := occursAt_bound hp hocc
        omega
  · rename_i hle
    intro r
    cases hocc : occursAt s pat r with
    | false => rfl
    | true =>
      have hb := occursAt_bound hp hocc
      omega

/-- Occurrences inside a prefix are the occurrences that end within it. -/
theorem occursAt_take_iff {s pat : List Nat} (hp : pat ≠ []) {idx q : Nat} :
    occursAt (s.take idx) pat q = true ↔
      occursAt s pat q = true ∧ q + pat.length ≤ idx := by
  rw [occursAt_iff, occursAt_iff]
  rw [List.drop_take, List.take_take]
  constructor
  · intro h
    have hlen := congrArg List.length h
    simp only [List.length_take, List.length_drop] at hlen
    have hpos : 0 < pat.length := List.length_pos.mpr hp
    have hle : pat.length ≤ idx - q := by omega
    have hmin : pat.length ⊓ (idx - q) = pat.length := by omega
    rw [hmin] at h
    refine ⟨h, ?_⟩
    omega
  · intro ⟨h, hle⟩
    have hmin : pat.length ⊓ (idx - q) = pat.length := by omega
    rw [hmin]
    exact h

/-- The match offset returned inside the loop lies 24 bytes inside `idx`. -/
theorem bytesLastIndex_take_bound {buf : List Nat} {idx p : Nat}
    (h : bytesLastIndex (buf.take idx) keyPattern = some p) : p + 24 ≤ idx := by
  have hocc := (bytesLastIndex_some keyPattern_ne_nil h).1
  have hb := occursAt_bound keyPattern_ne_nil hocc
  rw [keyPattern_length] at hb
  have hlt : (buf.take idx).length ≤ idx := by
    rw [List.length_take]; omega
  omega

/-- The loop's result does not depend on the fuel once the fuel exceeds the
starting index: every iteration strictly decreases `idx`. -/
theorem fcpGo_fuel_irrel (buf : List Nat) :
    ∀ f1 f2 idx cands, idx < f1 → idx < f2 →
      fcpGo buf f1 idx cands = fcpGo buf f2 idx cands := by
  intro f1
  induction f1 with
  | zero => intro f2 idx cands h1 h2; omega
  | succ f1 ih =>
    intro f2 idx cands h1 h2
    cases f2 with
    | zero => omega
    | succ f2 =>
      simp only [fcpGo]
      split
      · rfl
      · rename_i p hbl
        have hble : p + 24 ≤ idx := bytesLastIndex_take_bound hbl
        by_cases hp8 : p < 8
        · simp only [if_pos hp8]
        · simp only [if_neg hp8]
          by_cases hpr : inPtrRange (leUint64 ((buf.drop (p - 8)).take 8)) = true
          · simp only [if_pos hpr]
            by_cases hbs : BatchValidateSize ≤
                (cands ++ [leUint64 ((buf.drop (p - 8)).take 8)]).length
            · simp only [if_pos hbs]
            · simp only [if_neg hbs]
              rw [ih f2 (p - 1) (cands ++ [leUint64 ((buf.drop (p - 8)).take 8)])
                (by omega) (by omega)]
          · simp only [if_neg hpr]
            rw [ih f2 (p - 1) cands (by omega) (by omega)]

/-- The candidate list built by the loop extends the accumulator with the
pointer of every examined match offset `p ≥ 8` whose pointer lies in the
acceptance range (C6's content, proved along the loop). -/
theorem fcpGo_fst (buf : List Nat) :
    ∀ fuel idx cands, idx < fuel →
      (fcpGo buf fuel idx cands).1 =
        cands ++ ((fcpGo buf fuel idx cands).2.filter
          (fun p => decide (8 ≤ p))).filterMap (candOf buf) := by
  intro fuel
  induction fuel with
  | zero => intro idx cands h; omega
  | succ fuel ih =>
    intro idx cands hf
    simp only [fcpGo]
    split
    · simp
    · rename_i p hbl
      have hble : p + 24 ≤ idx := bytesLastIndex_take_bound hbl
      by_cases hp8 : p < 8
      · simp [hp8]
      · rw [if_neg hp8]
        have hc : candOf buf p =
            (if inPtrRange (leUint64 ((buf.drop (p - 8)).take 8)) then
              some (leUint64 ((buf.drop (p - 8)).take 8)) else none) := rfl
        by_cases hpr : inPtrRange (leUint64 ((buf.drop (p - 8)).take 8)) = true
        · rw [if_pos hpr]
          by_cases hbs : BatchValidateSize ≤ (cands ++ [leUint64 ((buf.drop (p - 8)).take 8)]).length
          · rw [if_pos hbs]
            simp [hc, hpr, hp8, Nat.not_lt.mp hp8]
          · rw [if_neg hbs]
            rw [ih (p - 1) (cands ++ [leUint64 ((buf.drop (p - 8)).take 8)]) (by omega)]
            simp [hc, hpr, Nat.not_lt.mp hp8]
        · rw [if_neg hpr]
          rw [ih (p - 1) cands (by omega)]
          simp [hc, hpr, Nat.not_lt.mp hp8]

/-- The head of the loop's trace is the greatest occurrence ending inside
`idx`; an empty trace means there is none. -/
theorem fcpGo_trace_head (buf : List Nat) (fuel idx : Nat) (cands : List Nat)
    (hf : idx < fuel) :
    ((fcpGo buf fuel idx cands).2 = [] →
        ∀ r, r + 24 ≤ idx → occursAt buf keyPattern r = false) ∧
    (∀ q rest, (fcpGo buf fuel idx cands).2 = q :: rest →
        occursAt buf keyPattern q = true ∧ q + 24 ≤ idx ∧
          ∀ r, q < r → r + 24 ≤ idx → occursAt buf keyPattern r = false) := by
  cases fuel with
  | zero => omega
  | succ fuel =>
    simp only [fcpGo]
    split
    case _ hbl =>
      refine ⟨fun _ r hr => ?_, fun q rest hqr => ?_⟩
      · cases hocc : occursAt buf keyPattern r with
        | false => rfl
        | true =>
          have h2 : occursAt (buf.take idx) keyPattern r = true :=
            (occursAt_take_iff keyPattern_ne_nil).mpr
              ⟨hocc, by rw [keyPattern_length]; omega⟩
          have h3 := bytesLastIndex_none keyPattern_ne_nil hbl r
          rw [h3] at h2
          exact Bool.noConfusion h2
      · exact absurd hqr (by simp)
    case _ p hbl =>
      have hocc := (bytesLastIndex_some keyPattern_ne_nil hbl).1
      have hmax := (bytesLastIndex_some keyPattern_ne_nil hbl).2
      have hble : p + 24 ≤ idx := bytesLastIndex_take_bound hbl
      have hhead : occursAt buf keyPattern p = true ∧ p + 24 ≤ idx ∧
          ∀ r, p < r → r + 24 ≤ idx → occursAt buf keyPattern r = false := by
        refine ⟨((occursAt_take_iff keyPattern_ne_nil).mp hocc).1, hble,
          fun r hr hrb => ?_⟩
        cases hocc2 : occursAt buf keyPattern r with
        | false => rfl
        | true =>
          have h2 : occursAt (buf.take idx) keyPattern r = true :=
            (occursAt_take_iff keyPattern_ne_nil).mpr
              ⟨hocc2, by rw [keyPattern_length]; omega⟩
          have h3 := hmax r hr
          rw [h3] at h2
          exact Bool.noConfusion h2
      by_cases hp8 : p < 8
      · rw [if_pos hp8]
        exact ⟨fun h => absurd h (by simp), fun q rest hqr => by
          obtain ⟨rfl, _⟩ := List.cons.inj hqr
          exact hhead⟩
      · rw [if_neg hp8]
        by_cases hpr : inPtrRange (leUint64 ((buf.drop (p - 8)).take 8)) = true
        · rw [if_pos hpr]
          by_cases hbs : BatchValidateSize ≤ (cands ++ [leUint64 ((buf.drop (p - 8)).take 8)]).length
          · rw [if_pos hbs]
            exact ⟨fun h => absurd h (by simp), fun q rest hqr => by
              obtain ⟨rfl, _⟩ := List.cons.inj hqr
              exact hhead⟩
          · rw [if_neg hbs]
            exact ⟨fun h => absurd h (by simp), fun q rest hqr => by
              obtain ⟨rfl, _⟩ := List.cons.inj hqr
              exact hhead⟩
        · rw [if_neg hpr]
          exact ⟨fun h => absurd h (by simp), fun q rest hqr => by
            obtain ⟨rfl, _⟩ := List.cons.inj hqr
            exact hhead⟩

/-- Every offset in the loop's trace is an occurrence ending inside `idx`. -/
theorem fcpGo_trace_sound (buf : List Nat) :
    ∀ fuel idx cands p, idx < fuel → p ∈ (fcpGo buf fuel idx cands).2 →
      occursAt buf keyPattern p = true ∧ p + 24 ≤ idx := by
  intro fuel
  induction fuel with
  | zero => intro idx cands p h; omega
  | succ fuel ih =>
    intro idx cands p hf hp
    have hhead := fcpGo_trace_head buf (fuel + 1) idx cands hf
    revert hp
    simp only [fcpGo]
    split
    · intro hp
      exact absurd hp (by simp)
    · rename_i p0 hbl
      have hble : p0 + 24 ≤ idx := bytesLastIndex_take_bound hbl
      have hocc0 : occursAt buf keyPattern p0 = true :=
        ((occursAt_take_iff keyPattern_ne_nil).mp
          ((bytesLastIndex_some keyPattern_ne_nil hbl).1)).1
      by_cases hp8 : p0 < 8
      · rw [if_pos hp8]
        intro hp
        obtain rfl := List.mem_singleton.mp hp
        exact ⟨hocc0, hble⟩
      · rw [if_neg hp8]
        by_cases hpr : inPtrRange (leUint64 ((buf.drop (p0 - 8)).take 8)) = true
        · rw [if_pos hpr]
          by_cases hbs : BatchValidateSize ≤
              (cands ++ [leUint64 ((buf.drop (p0 - 8)).take 8)]).length
          · rw [if_pos hbs]
            intro hp
            obtain rfl := List.mem_singleton.mp hp
            exact ⟨hocc0, hble⟩
          · rw [if_neg hbs]
            intro hp
            rcases List.mem_cons.mp hp with rfl | hp
            · exact ⟨hocc0, hble⟩
            · obtain ⟨ho, hb⟩ := ih (p0 - 1)
                (cands ++ [leUint64 ((buf.drop (p0 - 8)).take 8)]) p (by omega) hp
              exact ⟨ho, by omega⟩
        · rw [if_neg hpr]
          intro hp
          rcases List.mem_cons.mp hp with rfl | hp
          · exact ⟨hocc0, hble⟩
          · obtain ⟨ho, hb⟩ := ih (p0 - 1) cands p (by omega) hp
            exact ⟨ho, by omega⟩

/-- Consecutive trace offsets: the later match ends before the byte preceding
the earlier one, and no occurrence between them was skipped. -/
theorem fcpGo_trace_chain (buf : List Nat) :
    ∀ fuel idx cands, idx < fuel →
      List.Chain' (fun p q => q + 25 ≤ p ∧
          ∀ r, q < r → r + 25 ≤ p → occursAt buf keyPattern r = false)
        ((fcpGo buf fuel idx cands).2) := by
  intro fuel
  induction fuel with
  | zero => intro idx cands h; omega
  | succ fuel ih =>
    intro idx cands hf
    simp only [fcpGo]
    split
    · simp
    · rename_i p hbl
      have hble : p + 24 ≤ idx := bytesLastIndex_take_bound hbl
      by_cases hp8 : p < 8
      · rw [if_pos hp8]
        simp
      · rw [if_neg hp8]
        have hstep : ∀ cands', idx < fuel + 1 →
            List.Chain' (fun p q => q + 25 ≤ p ∧
                ∀ r, q < r → r + 25 ≤ p → occursAt buf keyPattern r = false)
              (p :: (fcpGo buf fuel (p - 1) cands').2) := by
          intro cands' _
          rw [List.chain'_cons']
          refine ⟨?_, ih (p - 1) cands' (by omega)⟩
          intro q hq
          cases htr : (fcpGo buf fuel (p - 1) cands').2 with
          | nil => rw [htr] at hq; exact absurd hq (by simp)
          | cons q0 rest =>
            rw [htr] at hq
            simp only [List.head?_cons, Option.mem_def, Option.some.injEq] at hq
            subst hq
            obtain ⟨hoq, hqb, hqmax⟩ :=
              (fcpGo_trace_head buf fuel (p - 1) cands' (by omega)).2 q0 rest htr
            refine ⟨by omega, fun r hr hrb => hqmax r hr (by omega)⟩
        by_cases hpr : inPtrRange (leUint64 ((buf.drop (p - 8)).take 8)) = true
        · rw [if_pos hpr]
          by_cases hbs : BatchValidateSize ≤
              (cands ++ [leUint64 ((buf.drop (p - 8)).take 8)]).length
          · rw [if_pos hbs]
            simp
          · rw [if_neg hbs]
            exact hstep _ hf
        · rw [if_neg hpr]
          exact hstep _ hf

/-! ## C4: which occurrences the back-to-front search examines -/

/-- Counterexample to C4: in the concrete buffer the pattern occurs at offsets
8 and 32, the occurrence at 8 being preceded by the in-range pointer 0x20000;
the match at 32 is examined, the search then resumes in the prefix of length
31, which cannot contain the occurrence at 8 (it ends at byte 32), and the
scan ends with no candidate — the occurrence at 8 is never examined. -/
theorem c4_counterexample :
    occursAt c4buf keyPattern 8 = true ∧
    candOf c4buf 8 = some 0x20000 ∧
    fcpTrace c4buf = [32] ∧
    findCandidatePointers c4buf = [] := by
  exact ⟨by decide, by decide, by decide, by decide⟩

/-- C4 as amended: every examined offset is a pattern occurrence; after a
match at `p` the search resumes in the prefix of length `p - 1`, so the next
examined match is the greatest occurrence `q` with `q + 24 ≤ p - 1`
(occurrences starting within 24 bytes below `p` are skipped) and nothing
below `p` and above `q` is missed; the first examined match is the greatest
occurrence in the buffer. Scanning stops at a match with fewer than 8
preceding bytes or after 8 accepted candidates. -/
theorem c4_amended (buf : List Nat) :
    (∀ p, p ∈ fcpTrace buf → occursAt buf keyPattern p = true) ∧
    List.Chain' (fun p q => q + 25 ≤ p ∧
        ∀ r, q < r → r + 25 ≤ p → occursAt buf keyPattern r = false)
      (fcpTrace buf) ∧
    (∀ q, occursAt buf keyPattern q = true → ∃ p, p ∈ fcpTrace buf ∧ q ≤ p) := by
  have hf : buf.length < buf.length + 1 := Nat.lt_succ_self _
  refine ⟨?_, ?_, ?_⟩
  · intro p hp
    exact (fcpGo_trace_sound buf (buf.length + 1) buf.length [] p hf hp).1
  · exact fcpGo_trace_chain buf (buf.length + 1) buf.length [] hf
  · intro q hq
    have hb := occursAt_bound keyPattern_ne_nil hq
    rw [keyPattern_length] at hb
    obtain ⟨h1, h2⟩ := fcpGo_trace_head buf (buf.length + 1) buf.length [] hf
    cases htr : (fcpGo buf (buf.length + 1) buf.length []).2 with
    | nil =>
      have hfalse := h1 htr q hb
      rw [hfalse] at hq
      exact Bool.noConfusion hq
    | cons p rest =>
      obtain ⟨hop, hpb, hmax⟩ := h2 p rest htr
      by_cases hqp : q ≤ p
      · refine ⟨p, ?_, hqp⟩
        unfold fcpTrace
        rw [htr]
        exact List.mem_cons_self p rest
      · have hfalse := hmax q (by omega) hb
        rw [hfalse] at hq
        exact Bool.noConfusion hq

/-- Witness for C4's amended statement: the occurrence at offset 32 of the
concrete buffer is below some examined match. -/
theorem c4_amended_witness :
    ∃ p, p ∈ fcpTrace c4buf ∧ 32 ≤ p :=
  (c4_amended c4buf).2.2 32 (by decide)

/-! ## C6: candidate extraction and acceptance window -/

/-- C6: the candidates returned by `findCandidatePointers` are exactly, for
each examined match offset `p` with at least 8 preceding bytes (a match with
`p - 8 < 0` yields no candidate), the little-endian 64-bit value of the 8
bytes at `[p-8, p)`, kept exactly when it lies strictly between 0x10000 and
0x7FFFFFFFFFFF. -/
theorem c6_candidate_acceptance (buf : List Nat) :
    findCandidatePointers buf =
      ((fcpTrace buf).filter (fun p => decide (8 ≤ p))).filterMap (candOf buf) ∧
    ∀ ptr, inPtrRange ptr = decide (0x10000 < ptr ∧ ptr < 0x7FFFFFFFFFFF) := by
  constructor
  · have h := fcpGo_fst buf (buf.length + 1) buf.length [] (Nat.lt_succ_self _)
    unfold findCandidatePointers fcpTrace
    simpa using h
  · intro ptr
    unfold inPtrRange
    simp

/-! ## Helper lemmas for batched validation (C7) -/

/-- The batch-read loop attempts a point-read for every candidate, in
candidate order. -/
theorem batchReadLoop_attempts (rm : Nat → Option (List Nat)) :
    ∀ (cands : List Nat) (m : List (Nat × List Nat)) (tr : List Nat),
      (batchReadLoop rm cands m tr).2 = tr ++ cands := by
  intro cands
  induction cands with
  | nil => intro m tr; simp [batchReadLoop]
  | cons a rest ih =>
    intro m tr
    cases h : rm a with
    | some d => rw [batchReadLoop, h]; rw [ih]; simp
    | none => rw [batchReadLoop, h]; rw [ih]; simp

/-- A key returned by the validation loop validates and is a stored value. -/
theorem batchValidateKeysWith_some :
    ∀ {entries : List (Nat × List Nat)} {val : List Nat → Bool} {d : List Nat},
      batchValidateKeysWith entries val = some d →
      val d = true ∧ ∃ a, (a, d) ∈ entries := by
  intro entries
  induction entries with
  | nil => intro val d h; exact absurd h (by simp [batchValidateKeysWith])
  | cons e rest ih =>
    intro val d h
    obtain ⟨a0, d0⟩ := e
    rw [batchValidateKeysWith] at h
    by_cases hv : val d0 = true
    · rw [if_pos hv] at h
      obtain rfl := Option.some.inj h
      exact ⟨hv, a0, List.mem_cons_self _ _⟩
    · rw [if_neg hv] at h
      obtain ⟨h1, a, h2⟩ := ih h
      exact ⟨h1, a, List.mem_cons_of_mem _ h2⟩

/-! ## C7: validation order within one worker -/

/-- Counterexample to C7: the concrete buffer yields the candidates
`[0x30000, 0x20000]` in back-to-front order and the point-reads happen in that
order, but validation iterates a Go map whose order is unspecified: the
reversed enumeration of the very same results map is a permutation of it,
enumerates the candidates in front-to-back order, and makes the validator
return a different key. -/
theorem c7_counterexample :
    findCandidatePointers c7buf = [0x30000, 0x20000] ∧
    (batchReadMemory c7read [0x30000, 0x20000]).Perm
        ((batchReadMemory c7read [0x30000, 0x20000]).reverse) ∧
    ((batchReadMemory c7read [0x30000, 0x20000]).reverse).map Prod.fst
        ≠ [0x30000, 0x20000] ∧
    batchValidateKeysWith ((batchReadMemory c7read [0x30000, 0x20000]).reverse)
        c7val
      ≠ batchValidateKeysWith (batchReadMemory c7read [0x30000, 0x20000]) c7val := by
  exact ⟨by decide, (List.reverse_perm _).symm, by decide, by decide⟩

/-- C7 as amended: within one worker the candidates of one buffer are
point-read in the buffer's back-to-front order, but they are passed to the
validator in an unspecified order — any permutation of the read-results map
may be enumerated — and whatever entry validates first is returned: any
returned key is a validated stored value of the map. -/
theorem c7_amended (rm : Nat → Option (List Nat)) (cands : List Nat)
    (val : List Nat → Bool) (ord : List (Nat × List Nat)) :
    batchReadAttempts rm cands = cands ∧
    ((batchReadMemory rm cands).Perm ord →
      ∀ d, batchValidateKeysWith ord val = some d →
        val d = true ∧ ∃ a, (a, d) ∈ batchReadMemory rm cands) := by
  constructor
  · unfold batchReadAttempts
    rw [batchReadLoop_attempts]
    rfl
  · intro hperm d hd
    obtain ⟨hv, a, ha⟩ := batchValidateKeysWith_some hd
    exact ⟨hv, a, hperm.mem_iff.mpr ha⟩

/-- Witness for C7's amended statement at the concrete buffer's candidates. -/
theorem c7_amended_witness :
    c7val [0x20000] = true ∧
      ∃ a, (a, [0x20000]) ∈ batchReadMemory c7read [0x30000, 0x20000] :=
  (c7_amended c7read [0x30000, 0x20000] c7val
      ((batchReadMemory c7read [0x30000, 0x20000]).reverse)).2
    (List.reverse_perm _).symm [0x20000] (by decide)

end Chatlog
